import Mathlib

/-!
Shallow embedding of the LinkHeader repository (src/link_header.py and
src/hal/__init__.py).  Strings are modelled as lists of characters; the
regex-driven scanners are modelled by hand-written matchers that follow the
anchored-match semantics of each pattern; the while-loops of the two parsers
are modelled by fuel-indexed recursions, with fuel adequacy proved separately.
-/

set_option linter.unusedVariables false

namespace LinkHeaderModel

/-- Strings of the Python program, modelled as lists of characters. -/
abbrev Str := List Char

/-- Opening brace character (written via its code point). -/
def braceOpen : Char := Char.ofNat 123

/-- Closing brace character (written via its code point). -/
def braceClose : Char := Char.ofNat 125

/-- Whitespace characters matched by the regex class backslash-s in Python
(ASCII and Latin-1 range; characters above U+00FF do not occur in the inputs
considered here). -/
def pyWhitespace (c : Char) : Bool :=
  c = ' ' || c = '\t' || c = '\n' || c = Char.ofNat 11 || c = Char.ofNat 12 ||
  c = '\r' || c = Char.ofNat 28 || c = Char.ofNat 29 || c = Char.ofNat 30 ||
  c = Char.ofNat 31 || c = Char.ofNat 133 || c = Char.ofNat 160

/-- Separator characters excluded by the TOKEN character class
of link_header.py line 31 and hal/__init__.py line 41. -/
def separatorChar (c : Char) : Bool :=
  c = '(' || c = ')' || c = '<' || c = '>' || c = '@' || c = ',' || c = ';' ||
  c = ':' || c = '\"' || c = '[' || c = ']' || c = '?' || c = '=' ||
  c = braceOpen || c = braceClose

/-- A character admitted by the TOKEN class: neither a separator nor
whitespace. -/
def tokenChar (c : Char) : Bool :=
  !(separatorChar c || pyWhitespace c)

/-- Consume the literal-space run of a regex piece consisting of a space and
a star (the patterns use the literal space character, not backslash-s). -/
def dropSpaces (s : Str) : Str := s.dropWhile (fun c => c = ' ')

/-- Greedy TOKEN run: longest prefix of token characters and the rest. -/
def spanToken (s : Str) : Str × Str :=
  (s.takeWhile tokenChar, s.dropWhile tokenChar)

/-- The quote-escaping performed at format time: value.replace of a quote by
backslash-quote (link_header.py line 155, hal/__init__.py line 206). -/
def escapeQ : Str → Str
  | [] => []
  | c :: cs => if c = '\"' then '\\' :: '\"' :: escapeQ cs else c :: escapeQ cs

/-- The unescaping performed at parse time: replace of backslash-quote by a
quote (link_header.py line 49, hal/__init__.py line 129); Python str.replace
scans left to right without overlap. -/
def unescapeQ : Str → Str
  | [] => []
  | [c] => [c]
  | c0 :: c1 :: cs =>
    if c0 = '\\' ∧ c1 = '\"' then '\"' :: unescapeQ cs
    else c0 :: unescapeQ (c1 :: cs)

/-- Python str.join over a list of pieces. -/
def joinSep (sep : Str) : List Str → Str
  | [] => []
  | [x] => x
  | x :: xs => x ++ sep ++ joinSep sep xs

/-!
## Scanner pattern matchers

Each matcher models one compiled pattern, anchored at the start of the
remaining buffer, returning the capture(s) and the buffer after the match
(the scanner of link_header.py lines 167-179 / hal lines 55-69 advances the
buffer past the match on success and leaves it unchanged on failure).
-/

/-- The optional-semicolon-then-spaces tail piece of the HREF pattern. -/
def semiOpt (s : Str) : Str :=
  match s with
  | [] => s
  | c :: r => if c = ';' then dropSpaces r else s

/-- The spaces-optional-comma-spaces head piece of the RE_COMMA_HREF
pattern (applied after the leading spaces are consumed). -/
def commaOpt (s : Str) : Str :=
  match s with
  | [] => s
  | c :: r => if c = ',' then dropSpaces r else s

/-- HREF pattern of link_header.py line 30: spaces, a less-than sign, spaces,
a greedy run of characters other than the greater-than sign (the capture,
which keeps any trailing spaces because the greedy group reaches the
greater-than sign first), the greater-than sign, spaces, an optional
semicolon, spaces. -/
def matchHREF (s : Str) : Option (Str × Str) :=
  match dropSpaces s with
  | [] => none
  | c :: s2 =>
    if c = '<' then
      match (dropSpaces s2).dropWhile (fun c => c ≠ '>') with
      | [] => none
      | _ :: s4 =>
        -- the first character not consumed by the greedy capture is
        -- necessarily the greater-than sign
        some ((dropSpaces s2).takeWhile (fun c => c ≠ '>'), semiOpt (dropSpaces s4))
    else none

/-- Quoted-string body matcher: after the opening quote, the greedy content
of the QUOTED pattern (either a character that is not a quote and not a
backslash, or a backslash followed by any character other than a newline),
then the closing quote.  Returns the raw captured content and the rest.
Backtracking cannot rescue a failed greedy scan here because no content unit
starts with a quote character. -/
def scanQuoted : Str → Option (Str × Str)
  | [] => none
  | c :: rest =>
    if c = '\"' then some ([], rest)
    else if c = '\\' then
      match rest with
      | [] => none
      | c2 :: rest2 =>
        if c2 = '\n' then none
        else (scanQuoted rest2).map (fun p => (c :: c2 :: p.1, p.2))
    else (scanQuoted rest).map (fun p => (c :: p.1, p.2))

/-- ATTR pattern of link_header.py line 33 (identical to RE_ATTR of
hal/__init__.py line 45): a TOKEN name, spaces, an equals sign, spaces, then
either a TOKEN value (tried first by the alternation) or a QUOTED value,
then trailing spaces.  Returns the name, the token capture (group 3), the
quoted capture (group 4) and the rest. -/
def matchATTR (s : Str) : Option (Str × Option Str × Option Str × Str) :=
  if (spanToken s).1.isEmpty then none
  else
    match dropSpaces (spanToken s).2 with
    | [] => none
    | c :: s2 =>
      if c = '=' then
        if (spanToken (dropSpaces s2)).1.isEmpty then
          match dropSpaces s2 with
          | [] => none
          | c' :: s4 =>
            if c' = '\"' then
              match scanQuoted s4 with
              | some (q, s5) => some ((spanToken s).1, none, some q, dropSpaces s5)
              | none => none
            else none
        else
          some ((spanToken s).1, some (spanToken (dropSpaces s2)).1, none,
            dropSpaces (spanToken (dropSpaces s2)).2)
      else none

/-- SEMI pattern: a semicolon then spaces. -/
def matchSEMI (s : Str) : Option Str :=
  match s with
  | [] => none
  | c :: rest => if c = ';' then some (dropSpaces rest) else none

/-- COMMA pattern: a comma then spaces. -/
def matchCOMMA (s : Str) : Option Str :=
  match s with
  | [] => none
  | c :: rest => if c = ',' then some (dropSpaces rest) else none

/-!
## Wire-faithful variant (src/link_header.py)
-/

/-- A link of the wire-faithful variant: an href and an ordered list of
attribute name/value pairs (Link.__init__, link_header.py lines 112-131;
a LinkHeader is the list of its links). -/
structure WireLink where
  href : Str
  attrs : List (Str × Str)
deriving DecidableEq

/-- Attribute formatting of Link.__str__ (link_header.py line 155): the name,
an equals sign, and the value always quoted with embedded quotes escaped. -/
def fmtAttr (p : Str × Str) : Str :=
  p.1 ++ '=' :: '\"' :: (escapeQ p.2 ++ ['\"'])

/-- Link.__str__ (link_header.py lines 145-156): the angle-bracketed href
followed by the formatted attribute pairs, joined with a semicolon-space. -/
def lhLinkStr (l : WireLink) : Str :=
  joinSep [';', ' '] (('<' :: (l.href ++ ['>'])) :: l.attrs.map fmtAttr)

/-- LinkHeader.__str__ (link_header.py lines 93-99): links joined with a
comma-space. -/
def lhStr (links : List WireLink) : Str :=
  joinSep [',', ' '] (links.map lhLinkStr)

/-- Outcome of running a piece of Python code: a value, or an uncaught
exception. -/
inductive PyRes (α : Type) where
  | ok (a : α)
  | exn
deriving DecidableEq

/-- The attribute loop of parse (link_header.py lines 48-52), fuel-indexed
(none means the fuel ran out; the adequacy theorem shows length-plus-one fuel
always suffices).  On an ATTR match whose value took the TOKEN alternative,
group 4 is None and the attempt to unescape it (scanner[4].replace, line 49)
raises AttributeError, modelled by the exn outcome.  Otherwise the pair is
recorded and the loop continues only when a SEMI follows. -/
def parseAttrsF : Nat → Str → Option (PyRes (List (Str × Str) × Str))
  | 0, _ => none
  | fuel + 1, s =>
    match matchATTR s with
    | none => some (.ok ([], s))
    | some (name, tok, quot, s1) =>
      match quot with
      | none => some .exn
      | some q =>
        match matchSEMI s1 with
        | none => some (.ok ([(name, unescapeQ q)], s1))
        | some s2 =>
          match parseAttrsF fuel s2 with
          | none => none
          | some .exn => some .exn
          | some (.ok (ps, rest)) => some (.ok ((name, unescapeQ q) :: ps, rest))

/-- The link loop of parse (link_header.py lines 45-55), fuel-indexed: while
an HREF matches, collect the attribute pairs, emit the link, and continue
only when a COMMA follows. -/
def parseLinksF : Nat → Str → Option (PyRes (List WireLink))
  | 0, _ => none
  | fuel + 1, s =>
    match matchHREF s with
    | none => some (.ok [])
    | some (href, s1) =>
      match parseAttrsF (s1.length + 1) s1 with
      | none => none
      | some .exn => some .exn
      | some (.ok (attrs, s2)) =>
        match matchCOMMA s2 with
        | none => some (.ok [⟨href, attrs⟩])
        | some s3 =>
          match parseLinksF fuel s3 with
          | none => none
          | some .exn => some .exn
          | some (.ok ls) => some (.ok (⟨href, attrs⟩ :: ls))

/-- link_header.parse (lines 38-57), run with fuel one more than the input
length (shown adequate below). -/
def lhParse (s : Str) : Option (PyRes (List WireLink)) :=
  parseLinksF (s.length + 1) s

end LinkHeaderModel


namespace LinkHeaderModel

/-!
## HAL-style variant (src/hal/__init__.py)

Python values in this variant are strings or None; a stored attribute value
is modelled as an optional character list (none standing for Python None).
-/

/-- Python truthiness of a string-or-None value: None and the empty string
are falsy. -/
def pyTruthy (v : Option Str) : Bool :=
  match v with
  | none => false
  | some s => !s.isEmpty

/-- The x-or-None idiom (x or y with y evaluating to None). -/
def pyOrNone (v : Option Str) : Option Str :=
  if pyTruthy v then v else none

/-- First-match association lookup (the dict lookup; keys of a Python dict
are unique, so first match is the match). -/
def lookupPair {α : Type} : List (Str × α) → Str → Option α
  | [], _ => none
  | (k', v) :: rest, k => if k' = k then some v else lookupPair rest k

/-- dict.get with default None, flattening the stored string-or-None value. -/
def lookupD (m : List (Str × Option Str)) (k : Str) : Option Str :=
  match lookupPair m k with
  | some v => v
  | none => none

/-- Ordered-dict assignment d[k] = v: overwrite in place when the key is
present, append otherwise. -/
def dictInsert {α β : Type} [DecidableEq α] : List (α × β) → α → β → List (α × β)
  | [], k, v => [(k, v)]
  | (k', v') :: rest, k, v =>
    if k' = k then (k, v) :: rest else (k', v') :: dictInsert rest k v

/-- Key-membership test of a Python dict (the in operator). -/
def containsKey {α β : Type} [DecidableEq α] (m : List (α × β)) (k : α) : Bool :=
  m.any (fun p => decide (p.1 = k))

/-- The relation key. -/
def relKey : Str := "rel".data

/-- The href key. -/
def hrefKey : Str := "href".data

/-- RE_COMMA_HREF of hal/__init__.py line 43: spaces, an optional comma,
spaces, a less-than sign, spaces, the greedy non-greater-than capture, the
greater-than sign, trailing spaces (no optional semicolon here, unlike the
wire-faithful HREF pattern). -/
def matchCommaHREF (s : Str) : Option (Str × Str) :=
  match commaOpt (dropSpaces s) with
  | [] => none
  | c :: s3 =>
    if c = '<' then
      match (dropSpaces s3).dropWhile (fun c => c ≠ '>') with
      | [] => none
      | _ :: s5 =>
        -- the first character not consumed by the greedy capture is
        -- necessarily the greater-than sign
        some ((dropSpaces s3).takeWhile (fun c => c ≠ '>'), dropSpaces s5)
    else none

/-- The attribute loop of Links.parse (hal/__init__.py lines 126-129),
fuel-indexed: while a SEMI matches, an ATTR is attempted; on an ATTR match
the dict entry is assigned quot.replace-unescaped when the quoted capture is
truthy (a non-empty capture), else the token capture (None when the quoted
alternative matched with empty content). -/
def halAttrsF : Nat → List (Str × Option Str) → Str →
    Option (List (Str × Option Str) × Str)
  | 0, _, _ => none
  | fuel + 1, attrs, s =>
    match matchSEMI s with
    | none => some (attrs, s)
    | some s1 =>
      match matchATTR s1 with
      | none => halAttrsF fuel attrs s1
      | some (name, tok, quot, s2) =>
        halAttrsF fuel
          (dictInsert attrs name
            (match quot with
             | some q => if q.isEmpty then tok else some (unescapeQ q)
             | none => tok))
          s2

/-- A link of the HAL-style variant: the insertion-ordered attribute dict
set up by Link.__init__ (hal/__init__.py lines 151-157). -/
structure HalLink where
  dict : List (Str × Option Str)
deriving DecidableEq

/-- Link construction from keyword arguments (hal/__init__.py lines 151-157).
The href and rel keys of the call are captured by the named parameters (so
the remaining data never contains them); each is then replaced by None when
falsy (the href-or-data.get idiom, where data.get necessarily yields None);
finally data.update appends the rel entry then the href entry. -/
def mkHalLink (kwargs : List (Str × Option Str)) : HalLink :=
  let href := pyOrNone (lookupD kwargs hrefKey)
  let rel := pyOrNone (lookupD kwargs relKey)
  ⟨(kwargs.filter (fun p => decide (p.1 ≠ hrefKey ∧ p.1 ≠ relKey))) ++
    [(relKey, rel), (hrefKey, href)]⟩

/-- link.rel as read through Link.__getattr__ (hal/__init__.py lines
184-194): rel is a recognized attribute, and on a string-or-None stored
value the falsy / longer-than-one / single-character branches all return the
stored value itself (a one-character string s has s[0] = s), so the access
yields the stored value unchanged. -/
def linkRel (l : HalLink) : Option Str :=
  lookupD l.dict relKey

/-- The link loop of Links.parse (hal/__init__.py lines 124-131),
fuel-indexed: while RE_COMMA_HREF matches, start the attribute dict with the
href capture, run the attribute loop, then construct the Link from the dict
as keyword arguments.  (The loop condition also tests truthiness of the
original header string, which is constant; on an empty header the HREF match
fails at once, giving the same result.) -/
def halLinksLoopF : Nat → Str → Option (List HalLink × Str)
  | 0, _ => none
  | fuel + 1, s =>
    match matchCommaHREF s with
    | none => some ([], s)
    | some (href, s1) =>
      match halAttrsF (s1.length + 1) [(hrefKey, some href)] s1 with
      | none => none
      | some (attrs, s2) =>
        match halLinksLoopF fuel s2 with
        | none => none
        | some (links, rest) => some (mkHalLink attrs :: links, rest)

/-- Result of Links construction (Links.update, hal/__init__.py lines
112-117): the relation-keyed dict, or an AssertionError. -/
inductive HalInit where
  | ok (m : List (Option Str × HalLink))
  | assertError
deriving DecidableEq

/-- Links.update (hal/__init__.py lines 112-117).  Every HalLink has the
recognized rel and href attributes, so the hasattr guard is always true.
The assert tests that the literal string rel is not among the keys of the
accumulated dict (whose keys are relation values), and only then is the link
stored under its relation value, overwriting any previous link with the same
relation. -/
def halLinksUpdate (m : List (Option Str × HalLink)) :
    List HalLink → HalInit
  | [] => .ok m
  | l :: ls =>
    if containsKey m (some relKey) then .assertError
    else halLinksUpdate (dictInsert m (linkRel l) l) ls

/-- Links.__init__ (hal/__init__.py lines 79-81): update starting from the
empty dict. -/
def halLinksInit (ls : List HalLink) : HalInit :=
  halLinksUpdate [] ls

/-- Result of Links.parse: the collection, or a LinkError carrying the
unmatched remainder, or an AssertionError from Links construction. -/
inductive HalParse where
  | ok (m : List (Option Str × HalLink))
  | linkError (remainder : Str)
  | assertError
deriving DecidableEq

/-- Links.parse (hal/__init__.py lines 119-136): run the link loop; if the
scanner buffer is non-empty afterwards, raise LinkError carrying the
remainder; otherwise construct the Links collection. -/
def halParseF (s : Str) : Option HalParse :=
  match halLinksLoopF (s.length + 1) s with
  | none => none
  | some (links, leftover) =>
    if leftover = [] then
      match halLinksInit links with
      | .ok m => some (.ok m)
      | .assertError => some .assertError
    else some (.linkError leftover)

/-!
## HAL-style formatting and attribute access
-/

/-- key.endswith of a star. -/
def endsWithStar (k : Str) : Bool :=
  decide (k.getLast? = some '*')

/-- RE_ONLY_TOKEN of hal/__init__.py line 44: the TOKEN pattern anchored
between a caret and a dollar under re.match.  The dollar also matches just
before a single trailing newline, so the test accepts a non-empty token run
optionally followed by one final newline. -/
def reOnlyTokenB (v : Str) : Bool :=
  let p := spanToken v
  !p.1.isEmpty && (p.2.isEmpty || decide (p.2 = ['\n']))

/-- Link.str_pair (hal/__init__.py lines 201-206): emit the value unquoted
when RE_ONLY_TOKEN matches it or the key ends with a star, else quoted with
embedded quotes escaped. -/
def strPair (k v : Str) : Str :=
  if reOnlyTokenB v || endsWithStar k then k ++ '=' :: v
  else k ++ '=' :: '\"' :: (escapeQ v ++ ['\"'])

/-- The recognized attribute names (hal/__init__.py lines 142-149). -/
def STANDARD_ATTRS : List Str :=
  [relKey, "anchor".data, "rev".data, "media".data, "title".data,
   "type".data, hrefKey, "hreflang".data, "title*".data]

/-- The multi-valued attribute names (hal/__init__.py lines 146-148). -/
def MULTI_VALUED_ATTRS : List Str :=
  ["hreflang".data, "title*".data]

/-- Name normalization of Link.__getattr__ (hal/__init__.py lines 185-186):
lowercase, underscores to hyphens, content-type aliased to type. -/
def normalizeAttr (k : Str) : Str :=
  let a := (k.map Char.toLower).map (fun c => if c = '_' then '-' else c)
  if a = "content-type".data then "type".data else a

/-- Result of Link.__getattr__: an AttributeError, the absent value (None),
the full stored sequence, or the unwrapped sole element. -/
inductive GetattrRes where
  | attrError (name : Str)
  | pyNone
  | fullVal (v : List Str)
  | singleVal (x : Str)
deriving DecidableEq

/-- Link.__getattr__ (hal/__init__.py lines 184-194) over a dict of
sequence-valued attributes: normalize the name, reject unrecognized names
with AttributeError, then return the stored value as-is when it is absent,
falsy (empty), longer than one element, or multi-valued; otherwise return
its sole element. -/
def halGetattr (dict : List (Str × List Str)) (key : Str) : GetattrRes :=
  let attr := normalizeAttr key
  if decide (attr ∉ STANDARD_ATTRS) then .attrError attr
  else
    match lookupPair dict attr with
    | none => .pyNone
    | some v =>
      if v.isEmpty || v.length > 1 || decide (attr ∈ MULTI_VALUED_ATTRS) then
        .fullVal v
      else
        .singleVal (v.headD [])

/-- Link.to_py (hal/__init__.py lines 196-199): pop the rel entry from a
copy of the dict and return the popped relation value paired with the rest
(a missing rel key would be a KeyError, impossible for constructed links;
dict keys are unique, so removing the key is a filter). -/
def halLinkToPy (l : HalLink) : Option (Option Str × List (Str × Option Str)) :=
  match lookupPair l.dict relKey with
  | none => none
  | some v => some (v, l.dict.filter (fun p => decide (p.1 ≠ relKey)))

/-- Auxiliary fold of Links.to_py: build the result dict from each link
conversion in iteration order. -/
def halLinksToPyAux (acc : List (Option Str × List (Str × Option Str))) :
    List (Option Str × HalLink) →
    Option (List (Option Str × List (Str × Option Str)))
  | [] => some acc
  | (_, l) :: rest =>
    match halLinkToPy l with
    | none => none
    | some (r, inner) => halLinksToPyAux (dictInsert acc r inner) rest

/-- Links.to_py (hal/__init__.py lines 105-110): the dict built from the
to_py pair of each stored link, in iteration order. -/
def halLinksToPy (m : List (Option Str × HalLink)) :
    Option (List (Option Str × List (Str × Option Str))) :=
  halLinksToPyAux [] m

end LinkHeaderModel

namespace LinkHeaderModel

/-!
## Auxiliary predicates for the statements
-/

/-- The token grammar as the specification words it: a non-empty run of
characters that are neither separators nor whitespace. -/
def specTokenGrammar (v : Str) : Prop :=
  v ≠ [] ∧ ∀ c ∈ v, tokenChar c = true

instance (v : Str) : Decidable (specTokenGrammar v) := by
  unfold specTokenGrammar; infer_instance

/-- Discard a single trailing newline, if any (the effect of the dollar
anchor under re.match). -/
def stripNL (v : Str) : Str :=
  if v.getLast? = some '\n' then v.dropLast else v

/-- A wire-faithful link that formats to a faithfully reparsable string: the
href contains no greater-than sign and does not begin with a space, every
attribute name is a non-empty token run, and no attribute value contains a
backslash. -/
def goodLink (l : WireLink) : Prop :=
  '>' ∉ l.href ∧ l.href.head? ≠ some ' ' ∧
  ∀ p ∈ l.attrs, p.1 ≠ [] ∧ (∀ c ∈ p.1, tokenChar c = true) ∧ '\\' ∉ p.2

instance (l : WireLink) : Decidable (goodLink l) := by
  unfold goodLink; infer_instance

/-- All links of a collection are well formed in the sense of goodLink. -/
def goodLinks (links : List WireLink) : Prop :=
  ∀ l ∈ links, goodLink l

instance (links : List WireLink) : Decidable (goodLinks links) := by
  unfold goodLinks; infer_instance

/-- The attribute region of a formatted link followed by a continuation:
the formatted attribute pairs joined with semicolon-space, then the
continuation.  This is the shape of the scanner buffer handed to the
attribute loop when reparsing a formatted link. -/
def attrsStrFrom (rest : Str) : List (Str × Str) → Str
  | [] => rest
  | [a] => fmtAttr a ++ rest
  | a :: as => fmtAttr a ++ ';' :: ' ' :: attrsStrFrom rest as

end LinkHeaderModel


namespace LinkHeaderModel

/-!
## Consumption lemmas: every successful pattern match shortens the buffer
-/

theorem length_dropWhile_le (p : Char → Bool) (l : Str) :
    (l.dropWhile p).length ≤ l.length := by
  induction l with
  | nil => simp
  | cons a l ih =>
    by_cases h : p a
    · simp only [List.dropWhile_cons, h, if_pos, List.length_cons]
      omega
    · simp [List.dropWhile_cons, h]

theorem length_dropSpaces_le (s : Str) : (dropSpaces s).length ≤ s.length :=
  length_dropWhile_le _ s

theorem length_semiOpt_le (s : Str) : (semiOpt s).length ≤ s.length := by
  cases s with
  | nil => simp [semiOpt]
  | cons c r =>
    show (if c = ';' then dropSpaces r else c :: r).length ≤ (c :: r).length
    by_cases h : c = ';'
    · rw [if_pos h]
      have := length_dropSpaces_le r
      simp only [List.length_cons]
      omega
    · rw [if_neg h]

theorem length_commaOpt_le (s : Str) : (commaOpt s).length ≤ s.length := by
  cases s with
  | nil => simp [commaOpt]
  | cons c r =>
    show (if c = ',' then dropSpaces r else c :: r).length ≤ (c :: r).length
    by_cases h : c = ','
    · rw [if_pos h]
      have := length_dropSpaces_le r
      simp only [List.length_cons]
      omega
    · rw [if_neg h]

theorem spanToken_snd_lt {s : Str} (h : ¬(spanToken s).1.isEmpty = true) :
    (spanToken s).2.length < s.length := by
  cases s with
  | nil => simp [spanToken] at h
  | cons c rest =>
    by_cases hc : tokenChar c
    · simp only [spanToken, List.dropWhile_cons, hc, if_pos, List.length_cons]
      have := length_dropWhile_le tokenChar rest
      omega
    · simp [spanToken, List.takeWhile_cons, hc] at h

theorem matchHREF_length_lt {s h r : Str} (hm : matchHREF s = some (h, r)) :
    r.length < s.length := by
  have hds := length_dropSpaces_le s
  unfold matchHREF at hm
  split at hm
  · exact absurd hm (by simp)
  next c s2 heq =>
    split at hm
    · split at hm
      · exact absurd hm (by simp)
      next c' s4 heq2 =>
        simp only [Option.some.injEq, Prod.mk.injEq] at hm
        obtain ⟨hh, hr⟩ := hm
        have e1 : (semiOpt (dropSpaces s4)).length ≤ s4.length :=
          le_trans (length_semiOpt_le _) (length_dropSpaces_le _)
        have e2 : s4.length < (dropSpaces s2).length := by
          have e := length_dropWhile_le (fun c => decide (c ≠ '>')) (dropSpaces s2)
          rw [heq2] at e
          simp only [List.length_cons] at e
          omega
        have e3 : (dropSpaces s2).length ≤ s2.length := length_dropSpaces_le s2
        have e4 : s2.length < s.length := by
          rw [heq] at hds
          simp only [List.length_cons] at hds
          omega
        rw [← hr]
        omega
    · exact absurd hm (by simp)

theorem scanQuoted_cons (c : Char) (rest : Str) :
    scanQuoted (c :: rest) =
      if c = '\"' then some ([], rest)
      else if c = '\\' then
        match rest with
        | [] => none
        | c2 :: rest2 =>
          if c2 = '\n' then none
          else (scanQuoted rest2).map (fun p => (c :: c2 :: p.1, p.2))
      else (scanQuoted rest).map (fun p => (c :: p.1, p.2)) := by
  rw [scanQuoted.eq_def]
  rfl

theorem scanQuoted_length_lt {s q r : Str} (hm : scanQuoted s = some (q, r)) :
    r.length < s.length := by
  induction s using scanQuoted.induct generalizing q r with
  | case1 => exact absurd hm (by simp [scanQuoted])
  | case2 rest =>
    rw [scanQuoted_cons, if_pos rfl] at hm
    simp only [Option.some.injEq, Prod.mk.injEq] at hm
    obtain ⟨hq, hr⟩ := hm
    rw [← hr]
    simp
  | case3 hb =>
    rw [scanQuoted_cons, if_neg hb, if_pos rfl] at hm
    exact Option.noConfusion hm
  | case4 rest hb =>
    rw [scanQuoted_cons, if_neg hb, if_pos rfl] at hm
    dsimp only at hm
    rw [if_pos rfl] at hm
    exact Option.noConfusion hm
  | case5 c2 rest hnl hb ih =>
    rw [scanQuoted_cons, if_neg hb, if_pos rfl] at hm
    dsimp only at hm
    rw [if_neg hnl] at hm
    cases hsq : scanQuoted rest with
    | none => rw [hsq] at hm; exact Option.noConfusion hm
    | some p =>
      rw [hsq, Option.map_some'] at hm
      have hpr : p.2 = r := congrArg Prod.snd (Option.some.inj hm)
      have := ih (q := p.1) (r := p.2) hsq
      rw [← hpr]
      simp only [List.length_cons]
      omega
  | case6 c2 rest hq2 hb2 ih =>
    rw [scanQuoted_cons, if_neg hq2, if_neg hb2] at hm
    cases hsq : scanQuoted rest with
    | none => rw [hsq] at hm; exact Option.noConfusion hm
    | some p =>
      rw [hsq, Option.map_some'] at hm
      have hpr : p.2 = r := congrArg Prod.snd (Option.some.inj hm)
      have := ih (q := p.1) (r := p.2) hsq
      rw [← hpr]
      simp only [List.length_cons]
      omega

theorem matchATTR_length_lt {s : Str} {name : Str} {tok quot : Option Str}
    {r : Str} (hm : matchATTR s = some (name, tok, quot, r)) :
    r.length < s.length := by
  unfold matchATTR at hm
  split at hm
  · exact absurd hm (by simp)
  next hne =>
    have hspan : (spanToken s).2.length < s.length := spanToken_snd_lt hne
    have hds2 := length_dropSpaces_le (spanToken s).2
    split at hm
    · exact absurd hm (by simp)
    next c s2 heq =>
      have hs2 : s2.length < (spanToken s).2.length := by
        rw [heq] at hds2
        simp only [List.length_cons] at hds2
        omega
      split at hm
      · split at hm
        · -- quoted alternative
          split at hm
          · exact absurd hm (by simp)
          next c' s4 heq2 =>
            have hds3 := length_dropSpaces_le s2
            have hs4 : s4.length < s2.length := by
              rw [heq2] at hds3
              simp only [List.length_cons] at hds3
              omega
            split at hm
            · split at hm
              next q s5 hsq =>
                simp only [Option.some.injEq, Prod.mk.injEq] at hm
                obtain ⟨h1, h2, h3, h4⟩ := hm
                have e5 : s5.length < s4.length := scanQuoted_length_lt hsq
                have e6 : (dropSpaces s5).length ≤ s5.length := length_dropSpaces_le s5
                rw [← h4]
                omega
              · exact absurd hm (by simp)
            · exact absurd hm (by simp)
        · -- token alternative
          next hte =>
          simp only [Option.some.injEq, Prod.mk.injEq] at hm
          obtain ⟨h1, h2, h3, h4⟩ := hm
          have e5 : (spanToken (dropSpaces s2)).2.length < (dropSpaces s2).length :=
            spanToken_snd_lt hte
          have e6 : (dropSpaces s2).length ≤ s2.length := length_dropSpaces_le s2
          have e7 := length_dropSpaces_le (spanToken (dropSpaces s2)).2
          rw [← h4]
          omega
      · exact absurd hm (by simp)

theorem matchSEMI_length_lt {s r : Str} (hm : matchSEMI s = some r) :
    r.length < s.length := by
  unfold matchSEMI at hm
  split at hm
  · exact absurd hm (by simp)
  next c rest =>
    split at hm
    · simp only [Option.some.injEq] at hm
      have := length_dropSpaces_le rest
      rw [← hm]
      simp only [List.length_cons]
      omega
    · exact absurd hm (by simp)

theorem matchCOMMA_length_lt {s r : Str} (hm : matchCOMMA s = some r) :
    r.length < s.length := by
  unfold matchCOMMA at hm
  split at hm
  · exact absurd hm (by simp)
  next c rest =>
    split at hm
    · simp only [Option.some.injEq] at hm
      have := length_dropSpaces_le rest
      rw [← hm]
      simp only [List.length_cons]
      omega
    · exact absurd hm (by simp)

theorem matchCommaHREF_length_lt {s h r : Str}
    (hm : matchCommaHREF s = some (h, r)) : r.length < s.length := by
  have hco : (commaOpt (dropSpaces s)).length ≤ s.length :=
    le_trans (length_commaOpt_le _) (length_dropSpaces_le _)
  unfold matchCommaHREF at hm
  split at hm
  · exact absurd hm (by simp)
  next c s3 heq =>
    split at hm
    · split at hm
      · exact absurd hm (by simp)
      next c' s5 heq2 =>
        simp only [Option.some.injEq, Prod.mk.injEq] at hm
        obtain ⟨hh, hr⟩ := hm
        have e1 : (dropSpaces s5).length ≤ s5.length := length_dropSpaces_le s5
        have e2 : s5.length < (dropSpaces s3).length := by
          have e := length_dropWhile_le (fun c => decide (c ≠ '>')) (dropSpaces s3)
          rw [heq2] at e
          simp only [List.length_cons] at e
          omega
        have e3 : (dropSpaces s3).length ≤ s3.length := length_dropSpaces_le s3
        have e4 : s3.length < s.length := by
          rw [heq] at hco
          simp only [List.length_cons] at hco
          omega
        rw [← hr]
        omega
    · exact absurd hm (by simp)

end LinkHeaderModel

namespace LinkHeaderModel

/-!
## Fuel adequacy: fuel exceeding the buffer length never runs out

Each loop iteration performs at least one successful scan, and every
successful scan strictly shortens the buffer, so the remaining-input length
strictly decreases across iterations and bounds the number of iterations.
-/

theorem parseAttrsF_ne_none :
    ∀ (fuel : Nat) (s : Str), s.length < fuel → parseAttrsF fuel s ≠ none := by
  intro fuel
  induction fuel with
  | zero => intro s h; exact absurd h (Nat.not_lt_zero _)
  | succ n ih =>
    intro s hlen
    cases hA : matchATTR s with
    | none => simp [parseAttrsF, hA]
    | some x =>
      obtain ⟨name, tok, quot, s1⟩ := x
      cases quot with
      | none => simp [parseAttrsF, hA]
      | some q =>
        cases hS : matchSEMI s1 with
        | none => simp [parseAttrsF, hA, hS]
        | some s2 =>
          have h1 := matchATTR_length_lt hA
          have h2 := matchSEMI_length_lt hS
          have h3 := ih s2 (by omega)
          cases hrec : parseAttrsF n s2 with
          | none => exact absurd hrec h3
          | some r =>
            cases r with
            | exn => simp [parseAttrsF, hA, hS, hrec]
            | ok pr => simp [parseAttrsF, hA, hS, hrec]

theorem parseAttrsF_rest_le :
    ∀ (fuel : Nat) (s : Str) (ps : List (Str × Str)) (rest : Str),
      parseAttrsF fuel s = some (.ok (ps, rest)) → rest.length ≤ s.length := by
  intro fuel
  induction fuel with
  | zero => intro s ps rest hm; simp [parseAttrsF] at hm
  | succ n ih =>
    intro s ps rest hm
    cases hA : matchATTR s with
    | none =>
      simp only [parseAttrsF, hA, Option.some.injEq, PyRes.ok.injEq,
        Prod.mk.injEq] at hm
      obtain ⟨he1, he2⟩ := hm
      cases he2
      exact le_rfl
    | some x =>
      obtain ⟨name, tok, quot, s1⟩ := x
      have h1 := matchATTR_length_lt hA
      cases quot with
      | none => simp [parseAttrsF, hA] at hm
      | some q =>
        cases hS : matchSEMI s1 with
        | none =>
          simp only [parseAttrsF, hA, hS, Option.some.injEq, PyRes.ok.injEq,
            Prod.mk.injEq] at hm
          obtain ⟨he1, he2⟩ := hm
          cases he2
          omega
        | some s2 =>
          have h2 := matchSEMI_length_lt hS
          cases hrec : parseAttrsF n s2 with
          | none => simp [parseAttrsF, hA, hS, hrec] at hm
          | some r =>
            cases r with
            | exn => simp [parseAttrsF, hA, hS, hrec] at hm
            | ok pr =>
              obtain ⟨ps', rest'⟩ := pr
              simp only [parseAttrsF, hA, hS, hrec, Option.some.injEq,
                PyRes.ok.injEq, Prod.mk.injEq] at hm
              obtain ⟨he1, he2⟩ := hm
              have h3 := ih s2 ps' rest' hrec
              cases he2
              omega

theorem parseLinksF_ne_none :
    ∀ (fuel : Nat) (s : Str), s.length < fuel → parseLinksF fuel s ≠ none := by
  intro fuel
  induction fuel with
  | zero => intro s h; exact absurd h (Nat.not_lt_zero _)
  | succ n ih =>
    intro s hlen
    cases hH : matchHREF s with
    | none => simp [parseLinksF, hH]
    | some x =>
      obtain ⟨href, s1⟩ := x
      have h1 := matchHREF_length_lt hH
      cases hA : parseAttrsF (s1.length + 1) s1 with
      | none => exact absurd hA (parseAttrsF_ne_none _ _ (by omega))
      | some r =>
        cases r with
        | exn => simp [parseLinksF, hH, hA]
        | ok pr =>
          obtain ⟨attrs, s2⟩ := pr
          have h2 := parseAttrsF_rest_le _ _ _ _ hA
          cases hC : matchCOMMA s2 with
          | none => simp [parseLinksF, hH, hA, hC]
          | some s3 =>
            have h3 := matchCOMMA_length_lt hC
            have h4 := ih s3 (by omega)
            cases hrec : parseLinksF n s3 with
            | none => exact absurd hrec h4
            | some r2 =>
              cases r2 with
              | exn => simp [parseLinksF, hH, hA, hC, hrec]
              | ok ls => simp [parseLinksF, hH, hA, hC, hrec]

theorem halAttrsF_ne_none :
    ∀ (fuel : Nat) (attrs : List (Str × Option Str)) (s : Str),
      s.length < fuel → halAttrsF fuel attrs s ≠ none := by
  intro fuel
  induction fuel with
  | zero => intro attrs s h; exact absurd h (Nat.not_lt_zero _)
  | succ n ih =>
    intro attrs s hlen
    cases hS : matchSEMI s with
    | none => simp [halAttrsF, hS]
    | some s1 =>
      have h1 := matchSEMI_length_lt hS
      cases hA : matchATTR s1 with
      | none =>
        simp only [halAttrsF, hS, hA]
        exact ih attrs s1 (by omega)
      | some x =>
        obtain ⟨name, tok, quot, s2⟩ := x
        have h2 := matchATTR_length_lt hA
        simp only [halAttrsF, hS, hA]
        exact ih _ s2 (by omega)

theorem halAttrsF_rest_le :
    ∀ (fuel : Nat) (attrs : List (Str × Option Str)) (s : Str)
      (attrs' : List (Str × Option Str)) (rest : Str),
      halAttrsF fuel attrs s = some (attrs', rest) → rest.length ≤ s.length := by
  intro fuel
  induction fuel with
  | zero => intro attrs s attrs' rest hm; simp [halAttrsF] at hm
  | succ n ih =>
    intro attrs s attrs' rest hm
    cases hS : matchSEMI s with
    | none =>
      simp only [halAttrsF, hS, Option.some.injEq, Prod.mk.injEq] at hm
      obtain ⟨he1, he2⟩ := hm
      cases he2
      exact le_rfl
    | some s1 =>
      have h1 := matchSEMI_length_lt hS
      cases hA : matchATTR s1 with
      | none =>
        simp only [halAttrsF, hS, hA] at hm
        have := ih attrs s1 attrs' rest hm
        omega
      | some x =>
        obtain ⟨name, tok, quot, s2⟩ := x
        have h2 := matchATTR_length_lt hA
        simp only [halAttrsF, hS, hA] at hm
        have := ih _ s2 attrs' rest hm
        omega

theorem halLinksLoopF_ne_none :
    ∀ (fuel : Nat) (s : Str), s.length < fuel → halLinksLoopF fuel s ≠ none := by
  intro fuel
  induction fuel with
  | zero => intro s h; exact absurd h (Nat.not_lt_zero _)
  | succ n ih =>
    intro s hlen
    cases hH : matchCommaHREF s with
    | none => simp [halLinksLoopF, hH]
    | some x =>
      obtain ⟨href, s1⟩ := x
      have h1 := matchCommaHREF_length_lt hH
      cases hA : halAttrsF (s1.length + 1) [(hrefKey, some href)] s1 with
      | none => exact absurd hA (halAttrsF_ne_none _ _ _ (by omega))
      | some pr =>
        obtain ⟨attrs, s2⟩ := pr
        have h2 := halAttrsF_rest_le _ _ _ _ _ hA
        have h3 := ih s2 (by omega)
        cases hrec : halLinksLoopF n s2 with
        | none => exact absurd hrec h3
        | some r2 =>
          obtain ⟨links, rest⟩ := r2
          simp [halLinksLoopF, hH, hA, hrec]

end LinkHeaderModel

namespace LinkHeaderModel

/-!
## Scanning formatted output

These lemmas compute each matcher on the exact shapes produced by the
formatter, for the round-trip analysis.
-/

theorem takeWhile_append_all (p : Char → Bool) (a b : Str)
    (ha : ∀ c ∈ a, p c = true) :
    (a ++ b).takeWhile p = a ++ b.takeWhile p := by
  induction a with
  | nil => simp
  | cons c a ih =>
    have hc : p c = true := ha c (by simp)
    simp only [List.cons_append, List.takeWhile_cons, hc, if_pos]
    rw [ih (fun c2 hc2 => ha c2 (by simp [hc2]))]

theorem dropWhile_append_all (p : Char → Bool) (a b : Str)
    (ha : ∀ c ∈ a, p c = true) :
    (a ++ b).dropWhile p = b.dropWhile p := by
  induction a with
  | nil => simp
  | cons c a ih =>
    have hc : p c = true := ha c (by simp)
    simp only [List.cons_append, List.dropWhile_cons, hc, if_pos]
    exact ih (fun c2 hc2 => ha c2 (by simp [hc2]))

theorem takeWhile_eq_nil_of_head (p : Char → Bool) (b : Str)
    (hb : ∀ c, b.head? = some c → p c = false) : b.takeWhile p = [] := by
  cases b with
  | nil => simp
  | cons c r =>
    have := hb c rfl
    simp [List.takeWhile_cons, this]

theorem dropWhile_eq_self_of_head (p : Char → Bool) (b : Str)
    (hb : ∀ c, b.head? = some c → p c = false) : b.dropWhile p = b := by
  cases b with
  | nil => simp
  | cons c r =>
    have := hb c rfl
    simp [List.dropWhile_cons, this]

theorem dropSpaces_eq_self {b : Str} (hb : b.head? ≠ some ' ') :
    dropSpaces b = b := by
  cases b with
  | nil => rfl
  | cons c r =>
    have hc : ¬(c = ' ') := fun e => hb (by rw [e]; rfl)
    simp [dropSpaces, List.dropWhile_cons, hc]

theorem spanToken_append (a b : Str) (ha : ∀ c ∈ a, tokenChar c = true)
    (hb : ∀ c, b.head? = some c → tokenChar c = false) :
    spanToken (a ++ b) = (a, b) := by
  unfold spanToken
  rw [takeWhile_append_all _ _ _ ha, dropWhile_append_all _ _ _ ha,
    takeWhile_eq_nil_of_head _ _ hb, dropWhile_eq_self_of_head _ _ hb,
    List.append_nil]

theorem spanToken_of_head (b : Str)
    (hb : ∀ c, b.head? = some c → tokenChar c = false) :
    spanToken b = ([], b) := by
  unfold spanToken
  rw [takeWhile_eq_nil_of_head _ _ hb, dropWhile_eq_self_of_head _ _ hb]

theorem head?_append_of_ne_nil {a : Str} (b : Str) (h : a ≠ []) :
    (a ++ b).head? = a.head? := by
  cases a with
  | nil => exact absurd rfl h
  | cons c r => rfl

theorem tokenChar_ne_space {c : Char} (h : tokenChar c = true) : c ≠ ' ' := by
  intro e
  subst e
  exact absurd h (by decide)

theorem escapeQ_no_quote {v : Str} (h : '\"' ∉ v) : escapeQ v = v := by
  induction v with
  | nil => rfl
  | cons c cs ih =>
    have hc : ¬(c = '\"') := fun e => h (by rw [e]; exact List.mem_cons_self _ _)
    simp [escapeQ, hc, ih (fun hm => h (List.mem_cons_of_mem _ hm))]

theorem unescapeQ_cons_of_ne {c : Char} (hc : c ≠ '\\') (X : Str) :
    unescapeQ (c :: X) = c :: unescapeQ X := by
  cases X with
  | nil => rfl
  | cons x xs =>
    have hcond : ¬(c = '\\' ∧ x = '\"') := fun hh => hc hh.1
    simp [unescapeQ, hcond]

theorem unescapeQ_esc_pair (X : Str) :
    unescapeQ ('\\' :: '\"' :: X) = '\"' :: unescapeQ X := by
  simp [unescapeQ]

theorem unescapeQ_escapeQ {v : Str} (h : '\\' ∉ v) :
    unescapeQ (escapeQ v) = v := by
  induction v with
  | nil => rfl
  | cons c cs ih =>
    have hnb : c ≠ '\\' := fun e => h (by rw [e]; exact List.mem_cons_self _ _)
    have ih' := ih (fun hm => h (List.mem_cons_of_mem _ hm))
    by_cases hc : c = '\"'
    · subst hc
      rw [show escapeQ ('\"' :: cs) = '\\' :: '\"' :: escapeQ cs from by
        simp [escapeQ]]
      rw [unescapeQ_esc_pair, ih']
    · rw [show escapeQ (c :: cs) = c :: escapeQ cs from by simp [escapeQ, hc],
        unescapeQ_cons_of_ne hnb, ih']

theorem scanQuoted_escapeQ {v : Str} (h : '\\' ∉ v) (r : Str) :
    scanQuoted (escapeQ v ++ '\"' :: r) = some (escapeQ v, r) := by
  induction v with
  | nil =>
    rw [show escapeQ [] = [] from rfl, List.nil_append, scanQuoted_cons,
      if_pos rfl]
  | cons c cs ih =>
    have hnb : c ≠ '\\' := fun e => h (by rw [e]; exact List.mem_cons_self _ _)
    have ih' := ih (fun hm => h (List.mem_cons_of_mem _ hm))
    by_cases hc : c = '\"'
    · subst hc
      rw [show escapeQ ('\"' :: cs) = '\\' :: '\"' :: escapeQ cs from by
        simp [escapeQ]]
      rw [List.cons_append, List.cons_append, scanQuoted_cons,
        if_neg (by decide), if_pos rfl]
      dsimp only
      rw [if_neg (by decide), ih', Option.map_some']
    · rw [show escapeQ (c :: cs) = c :: escapeQ cs from by simp [escapeQ, hc],
        List.cons_append, scanQuoted_cons, if_neg hc, if_neg hnb, ih',
        Option.map_some']

theorem matchATTR_none_of_head {s : Str}
    (h : ∀ c, s.head? = some c → tokenChar c = false) : matchATTR s = none := by
  unfold matchATTR
  rw [if_pos]
  rw [spanToken_of_head s h]
  rfl

theorem matchSEMI_none_of_head {s : Str} (h : s.head? ≠ some ';') :
    matchSEMI s = none := by
  cases s with
  | nil => rfl
  | cons c r =>
    have hc : ¬(c = ';') := fun e => h (by rw [e]; rfl)
    simp [matchSEMI, hc]

theorem matchCOMMA_none_of_head {s : Str} (h : s.head? ≠ some ',') :
    matchCOMMA s = none := by
  cases s with
  | nil => rfl
  | cons c r =>
    have hc : ¬(c = ',') := fun e => h (by rw [e]; rfl)
    simp [matchCOMMA, hc]

theorem matchATTR_fmtAttr (name v rest : Str)
    (hn : name ≠ []) (hna : ∀ c ∈ name, tokenChar c = true)
    (hv : '\\' ∉ v)
    (hr : ∀ c, rest.head? = some c → (tokenChar c = false ∧ c ≠ ' ')) :
    matchATTR (fmtAttr (name, v) ++ rest) =
      some (name, none, some (escapeQ v), rest) := by
  have hshape : fmtAttr (name, v) ++ rest =
      name ++ '=' :: '\"' :: (escapeQ v ++ '\"' :: rest) := by
    simp [fmtAttr]
  rw [hshape]
  have hsp : spanToken (name ++ '=' :: '\"' :: (escapeQ v ++ '\"' :: rest)) =
      (name, '=' :: '\"' :: (escapeQ v ++ '\"' :: rest)) :=
    spanToken_append _ _ hna
      (fun c hc => by rw [← Option.some.inj hc]; decide)
  unfold matchATTR
  rw [hsp]
  dsimp only
  rw [if_neg (by simp [hn])]
  rw [dropSpaces_eq_self (by simp)]
  dsimp only
  rw [if_pos rfl]
  rw [dropSpaces_eq_self (by simp)]
  rw [spanToken_of_head ('\"' :: (escapeQ v ++ '\"' :: rest))
    (fun c hc => by rw [← Option.some.inj hc]; decide)]
  dsimp only
  rw [if_pos (show (List.isEmpty ([] : Str)) = true from rfl)]
  rw [scanQuoted_escapeQ hv]
  dsimp only
  rw [dropSpaces_eq_self (fun e => by
    cases hcase : rest.head? with
    | none => rw [hcase] at e; exact Option.noConfusion e
    | some c =>
      rw [hcase] at e
      exact (hr c hcase).2 (Option.some.inj e))]
  rw [if_pos rfl]

theorem matchHREF_shape (href after : Str)
    (h1 : '>' ∉ href) (h2 : href.head? ≠ some ' ') :
    matchHREF ('<' :: (href ++ '>' :: after)) =
      some (href, semiOpt (dropSpaces after)) := by
  unfold matchHREF
  rw [dropSpaces_eq_self (by simp)]
  dsimp only
  rw [if_pos rfl]
  have hhd : (href ++ '>' :: after).head? ≠ some ' ' := by
    cases href with
    | nil => simp
    | cons c t =>
      rw [head?_append_of_ne_nil _ (by simp)]
      exact h2
  rw [dropSpaces_eq_self hhd]
  have hargs : ∀ c ∈ href, (fun c => decide (c ≠ '>')) c = true :=
    fun c hc => decide_eq_true (fun e => h1 (e ▸ hc))
  rw [dropWhile_append_all _ _ _ hargs, takeWhile_append_all _ _ _ hargs]
  rw [show List.dropWhile (fun c => decide (c ≠ '>')) ('>' :: after) =
      '>' :: after from by simp [List.dropWhile_cons]]
  rw [show List.takeWhile (fun c => decide (c ≠ '>')) ('>' :: after) =
      [] from by simp [List.takeWhile_cons]]
  rw [List.append_nil]

end LinkHeaderModel

namespace LinkHeaderModel

/-!
## Reparsing a formatted collection
-/

theorem attrsStrFrom_head (rest : Str) (a : Str × Str) (as' : List (Str × Str))
    (h : a.1 ≠ []) :
    (attrsStrFrom rest (a :: as')).head? = a.1.head? := by
  have hfa : (fmtAttr a).head? = a.1.head? := by
    unfold fmtAttr
    exact head?_append_of_ne_nil _ h
  cases as' with
  | nil =>
    show (fmtAttr a ++ rest).head? = a.1.head?
    rw [head?_append_of_ne_nil _ (by
      unfold fmtAttr
      cases hc : a.1 with
      | nil => exact absurd hc h
      | cons c t => simp), hfa]
  | cons b bs =>
    show (fmtAttr a ++ ';' :: ' ' :: attrsStrFrom rest (b :: bs)).head? = a.1.head?
    rw [head?_append_of_ne_nil _ (by
      unfold fmtAttr
      cases hc : a.1 with
      | nil => exact absurd hc h
      | cons c t => simp), hfa]

theorem parseAttrsF_fmt :
    ∀ (attrs : List (Str × Str)) (rest : Str) (fuel : Nat),
      (∀ p ∈ attrs, p.1 ≠ [] ∧ (∀ c ∈ p.1, tokenChar c = true) ∧ '\\' ∉ p.2) →
      (rest = [] ∨ rest.head? = some ',') →
      (attrsStrFrom rest attrs).length < fuel →
      parseAttrsF fuel (attrsStrFrom rest attrs) = some (.ok (attrs, rest)) := by
  intro attrs
  induction attrs with
  | nil =>
    intro rest fuel hgood hrest hlen
    cases fuel with
    | zero => exact absurd hlen (by omega)
    | succ n =>
      have hnone : matchATTR (attrsStrFrom rest []) = none := by
        apply matchATTR_none_of_head
        intro c hc
        rcases hrest with h | h
        · rw [show attrsStrFrom rest [] = rest from rfl, h] at hc
          exact Option.noConfusion hc
        · rw [show attrsStrFrom rest [] = rest from rfl, h] at hc
          rw [← Option.some.inj hc]
          decide
      rw [show attrsStrFrom rest [] = rest from rfl] at hnone ⊢
      simp [parseAttrsF, hnone]
  | cons a as ih =>
    intro rest fuel hgood hrest hlen
    obtain ⟨hn, hna, hv⟩ := hgood a (List.mem_cons_self _ _)
    cases fuel with
    | zero => exact absurd hlen (by omega)
    | succ n =>
      cases as with
      | nil =>
        have hrhead : ∀ c, rest.head? = some c → (tokenChar c = false ∧ c ≠ ' ') := by
          intro c hc
          rcases hrest with h | h
          · rw [h] at hc; exact Option.noConfusion hc
          · rw [h] at hc
            rw [← Option.some.inj hc]
            exact ⟨by decide, by decide⟩
        have hA : matchATTR (attrsStrFrom rest [a]) =
            some (a.1, none, some (escapeQ a.2), rest) := by
          show matchATTR (fmtAttr a ++ rest) = _
          rw [show fmtAttr a = fmtAttr (a.1, a.2) from rfl]
          exact matchATTR_fmtAttr a.1 a.2 rest hn hna hv hrhead
        have hS : matchSEMI rest = none := by
          apply matchSEMI_none_of_head
          rcases hrest with h | h
          · rw [h]; simp
          · rw [h]; simp
        simp only [parseAttrsF, hA, hS]
        rw [unescapeQ_escapeQ hv]
      | cons b bs =>
        have hbn : b.1 ≠ [] := (hgood b (by simp)).1
        have hbtok := (hgood b (by simp)).2.1
        have hIhead : ∀ c, (attrsStrFrom rest (b :: bs)).head? = some c →
            (tokenChar c = true) := by
          intro c hc
          rw [attrsStrFrom_head rest b bs hbn] at hc
          cases hb1 : b.1 with
          | nil => exact absurd hb1 hbn
          | cons c0 t =>
            rw [hb1] at hc
            rw [← Option.some.inj hc]
            exact hbtok c0 (by rw [hb1]; simp)
        have hA : matchATTR (attrsStrFrom rest (a :: b :: bs)) =
            some (a.1, none, some (escapeQ a.2),
              ';' :: ' ' :: attrsStrFrom rest (b :: bs)) := by
          show matchATTR (fmtAttr a ++ ';' :: ' ' :: attrsStrFrom rest (b :: bs)) = _
          rw [show fmtAttr a = fmtAttr (a.1, a.2) from rfl]
          apply matchATTR_fmtAttr a.1 a.2 _ hn hna hv
          intro c hc
          rw [← Option.some.inj hc]
          exact ⟨by decide, by decide⟩
        have hS : matchSEMI (';' :: ' ' :: attrsStrFrom rest (b :: bs)) =
            some (attrsStrFrom rest (b :: bs)) := by
          show (if ';' = ';' then some (dropSpaces (' ' :: attrsStrFrom rest (b :: bs)))
            else none) = _
          rw [if_pos rfl]
          rw [show dropSpaces (' ' :: attrsStrFrom rest (b :: bs)) =
            dropSpaces (attrsStrFrom rest (b :: bs)) from by
              simp [dropSpaces, List.dropWhile_cons]]
          rw [dropSpaces_eq_self (by
            intro e
            cases hcase : (attrsStrFrom rest (b :: bs)).head? with
            | none => rw [hcase] at e; exact Option.noConfusion e
            | some c =>
              rw [hcase] at e
              have := hIhead c hcase
              rw [Option.some.inj e] at this
              exact absurd this (by decide))]
        have hlen2 : (attrsStrFrom rest (b :: bs)).length < n := by
          have : (attrsStrFrom rest (a :: b :: bs)).length =
              (fmtAttr a).length + 2 + (attrsStrFrom rest (b :: bs)).length := by
            show (fmtAttr a ++ ';' :: ' ' :: attrsStrFrom rest (b :: bs)).length = _
            simp only [List.length_append, List.length_cons]
            omega
          omega
        have hrec := ih rest n (fun p hp => hgood p (List.mem_cons_of_mem _ hp))
          hrest (by omega)
        simp only [parseAttrsF, hA, hS, hrec]
        rw [unescapeQ_escapeQ hv]

end LinkHeaderModel

namespace LinkHeaderModel

theorem joinSep_fmtAttr_append :
    ∀ (attrs : List (Str × Str)) (rest : Str), attrs ≠ [] →
      joinSep [';', ' '] (attrs.map fmtAttr) ++ rest = attrsStrFrom rest attrs := by
  intro attrs
  induction attrs with
  | nil => intro rest h; exact absurd rfl h
  | cons a as ih =>
    intro rest h
    cases as with
    | nil => rfl
    | cons b bs =>
      show (fmtAttr a ++ [';', ' '] ++
        joinSep [';', ' '] ((b :: bs).map fmtAttr)) ++ rest = _
      rw [show attrsStrFrom rest (a :: b :: bs) =
        fmtAttr a ++ ';' :: ' ' :: attrsStrFrom rest (b :: bs) from rfl]
      rw [← ih rest (by simp)]
      simp [List.append_assoc]

theorem lhLinkStr_decomp_nil (l : WireLink) (h : l.attrs = []) (rest : Str) :
    lhLinkStr l ++ rest = '<' :: (l.href ++ '>' :: rest) := by
  unfold lhLinkStr
  rw [h]
  show ('<' :: (l.href ++ ['>'])) ++ rest = _
  simp

theorem lhLinkStr_decomp_cons (l : WireLink) (h : l.attrs ≠ []) (rest : Str) :
    lhLinkStr l ++ rest =
      '<' :: (l.href ++ '>' :: ';' :: ' ' :: attrsStrFrom rest l.attrs) := by
  unfold lhLinkStr
  cases hm : l.attrs with
  | nil => exact absurd hm h
  | cons a as =>
    show (('<' :: (l.href ++ ['>'])) ++ [';', ' '] ++
      joinSep [';', ' '] ((a :: as).map fmtAttr)) ++ rest = _
    rw [← hm]
    rw [List.append_assoc, List.append_assoc,
      joinSep_fmtAttr_append l.attrs rest h]
    simp

theorem lhLinkStr_head (l : WireLink) : (lhLinkStr l).head? = some '<' := by
  unfold lhLinkStr
  cases hm : l.attrs.map fmtAttr with
  | nil => rfl
  | cons x xs =>
    cases xs with
    | nil => rfl
    | cons y ys => rfl

theorem lhStr_cons_cons (l l2 : WireLink) (ls : List WireLink) :
    lhStr (l :: l2 :: ls) = lhLinkStr l ++ ',' :: ' ' :: lhStr (l2 :: ls) := by
  show lhLinkStr l ++ [',', ' '] ++ joinSep [',', ' '] ((l2 :: ls).map lhLinkStr) = _
  simp [lhStr, List.append_assoc]

theorem lhStr_head (l : WireLink) (ls : List WireLink) :
    (lhStr (l :: ls)).head? = some '<' := by
  cases ls with
  | nil => exact lhLinkStr_head l
  | cons l2 ls2 =>
    rw [lhStr_cons_cons]
    have hh := lhLinkStr_head l
    cases hl : lhLinkStr l with
    | nil => rw [hl] at hh; exact Option.noConfusion hh
    | cons c t =>
      rw [hl] at hh
      rw [List.cons_append]
      exact hh

theorem attrsStrFrom_head_not_space (cont : Str) (a : Str × Str)
    (as : List (Str × Str)) (h1 : a.1 ≠ [])
    (h2 : ∀ c ∈ a.1, tokenChar c = true) :
    (attrsStrFrom cont (a :: as)).head? ≠ some ' ' := by
  rw [attrsStrFrom_head cont a as h1]
  cases hc : a.1 with
  | nil => exact absurd hc h1
  | cons c0 t =>
    intro e
    have hc0 : c0 = ' ' := Option.some.inj e
    have := h2 c0 (by rw [hc]; simp)
    rw [hc0] at this
    exact absurd this (by decide)

theorem matchHREF_lhLinkStr (l : WireLink) (cont : Str)
    (hgl : goodLink l) (hcont : cont = [] ∨ cont.head? = some ',') :
    matchHREF (lhLinkStr l ++ cont) =
      some (l.href, attrsStrFrom cont l.attrs) := by
  obtain ⟨hg1, hg2, hg3⟩ := hgl
  cases hattrs : l.attrs with
  | nil =>
    rw [lhLinkStr_decomp_nil l hattrs cont]
    rw [matchHREF_shape l.href cont hg1 hg2]
    rw [show attrsStrFrom cont [] = cont from rfl]
    rcases hcont with h | h
    · rw [h]; rfl
    · rw [dropSpaces_eq_self (by rw [h]; simp)]
      cases hcase : cont with
      | nil => rfl
      | cons c t =>
        rw [hcase] at h
        have : c = ',' := Option.some.inj h
        rw [this]
        rfl
  | cons a as =>
    rw [lhLinkStr_decomp_cons l (by rw [hattrs]; simp) cont]
    rw [matchHREF_shape l.href _ hg1 hg2]
    rw [dropSpaces_eq_self (by simp)]
    show some (l.href, dropSpaces (' ' :: attrsStrFrom cont l.attrs)) = _
    rw [show dropSpaces (' ' :: attrsStrFrom cont l.attrs) =
      dropSpaces (attrsStrFrom cont l.attrs) from by
        simp [dropSpaces, List.dropWhile_cons]]
    rw [hattrs]
    rw [dropSpaces_eq_self (attrsStrFrom_head_not_space cont a as
      (hg3 a (by rw [hattrs]; simp)).1 (hg3 a (by rw [hattrs]; simp)).2.1)]

theorem parseLinksF_fmt :
    ∀ (links : List WireLink) (fuel : Nat),
      goodLinks links → (lhStr links).length < fuel →
      parseLinksF fuel (lhStr links) = some (.ok links) := by
  intro links
  induction links with
  | nil =>
    intro fuel hg hlen
    cases fuel with
    | zero => exact absurd hlen (by omega)
    | succ n =>
      show parseLinksF (n + 1) [] = some (.ok [])
      simp [parseLinksF, show matchHREF [] = none from rfl]
  | cons l ls ih =>
    intro fuel hg hlen
    have hgl : goodLink l := hg l (List.mem_cons_self _ _)
    cases fuel with
    | zero => exact absurd hlen (by omega)
    | succ n =>
      cases ls with
      | nil =>
        have hshape : lhStr [l] = lhLinkStr l ++ [] := by
          show lhLinkStr l = lhLinkStr l ++ []
          simp
        rw [hshape] at hlen ⊢
        have hH := matchHREF_lhLinkStr l [] hgl (Or.inl rfl)
        have hlenI : (attrsStrFrom [] l.attrs).length ≤ (lhLinkStr l ++ []).length := by
          cases hattrs : l.attrs with
          | nil =>
            rw [show attrsStrFrom ([] : Str) ([] : List (Str × Str)) = [] from rfl]
            simp
          | cons a as =>
            rw [← hattrs, lhLinkStr_decomp_cons l (by rw [hattrs]; simp)]
            simp only [List.length_cons, List.length_append]
            omega
        have hPA := parseAttrsF_fmt l.attrs []
          ((attrsStrFrom [] l.attrs).length + 1) hgl.2.2 (Or.inl rfl) (by omega)
        have hC : matchCOMMA [] = none := rfl
        simp only [parseLinksF, hH, hPA, hC]
      | cons l2 ls2 =>
        rw [lhStr_cons_cons l l2 ls2] at hlen ⊢
        have hH := matchHREF_lhLinkStr l (',' :: ' ' :: lhStr (l2 :: ls2)) hgl
          (Or.inr rfl)
        have hPA := parseAttrsF_fmt l.attrs (',' :: ' ' :: lhStr (l2 :: ls2))
          ((attrsStrFrom (',' :: ' ' :: lhStr (l2 :: ls2)) l.attrs).length + 1)
          hgl.2.2 (Or.inr rfl) (by omega)
        have hC : matchCOMMA (',' :: ' ' :: lhStr (l2 :: ls2)) =
            some (lhStr (l2 :: ls2)) := by
          show (if ',' = ',' then
            some (dropSpaces (' ' :: lhStr (l2 :: ls2))) else none) = _
          rw [if_pos rfl]
          rw [show dropSpaces (' ' :: lhStr (l2 :: ls2)) =
            dropSpaces (lhStr (l2 :: ls2)) from by
              simp [dropSpaces, List.dropWhile_cons]]
          rw [dropSpaces_eq_self (by rw [lhStr_head l2 ls2]; simp)]
        have hlen2 : (lhStr (l2 :: ls2)).length < n := by
          simp only [List.length_append, List.length_cons] at hlen
          omega
        have hrec := ih n (fun x hx => hg x (List.mem_cons_of_mem _ hx)) hlen2
        simp only [parseLinksF, hH, hPA, hC, hrec]

end LinkHeaderModel

namespace LinkHeaderModel

/-!
## Characterization of the RE_ONLY_TOKEN test and dict lemmas
-/

theorem dropWhile_head_false (p : Char → Bool) :
    ∀ (l : Str) (c : Char) (t : Str), l.dropWhile p = c :: t → p c = false := by
  intro l
  induction l with
  | nil => intro c t h; simp at h
  | cons a r ih =>
    intro c t h
    by_cases ha : p a
    · rw [List.dropWhile_cons, if_pos ha] at h
      exact ih c t h
    · rw [List.dropWhile_cons, if_neg ha] at h
      injection h with h1 h2
      rw [← h1]
      cases hpa : p a
      · rfl
      · exact absurd hpa ha

theorem reOnlyTokenB_iff (v : Str) :
    reOnlyTokenB v = true ↔ specTokenGrammar (stripNL v) := by
  constructor
  · intro h
    unfold reOnlyTokenB at h
    rw [Bool.and_eq_true, Bool.or_eq_true] at h
    obtain ⟨h1, h2⟩ := h
    have hsplit := List.takeWhile_append_dropWhile tokenChar v
    rcases hsp : spanToken v with ⟨t, u⟩
    rw [hsp] at h1 h2
    have ht : v.takeWhile tokenChar = t := congrArg Prod.fst hsp
    have hu : v.dropWhile tokenChar = u := congrArg Prod.snd hsp
    have hveq : t ++ u = v := by rw [← ht, ← hu]; exact hsplit
    have hne : t ≠ [] := by intro e; rw [e] at h1; simp at h1
    have hall : ∀ c ∈ t, tokenChar c = true := by
      intro c hc
      rw [← ht] at hc
      exact List.mem_takeWhile_imp hc
    subst hveq
    rcases h2 with h2 | h2
    · have h2' : u = [] := by simpa using h2
      subst h2'
      rw [List.append_nil]
      have hlast : ¬(t.getLast? = some '\n') := by
        intro e
        have hmem := List.getLast_mem hne
        have hl2 : t.getLast hne = '\n' := by
          have h3 := List.getLast?_eq_getLast t hne
          rw [h3] at e
          exact Option.some.inj e
        have h4 := hall _ hmem
        rw [hl2] at h4
        exact absurd h4 (by decide)
      rw [show stripNL t = t from by unfold stripNL; rw [if_neg hlast]]
      exact ⟨hne, hall⟩
    · have h2' : u = ['\n'] := of_decide_eq_true h2
      subst h2'
      have hlast : (t ++ ['\n']).getLast? = some '\n' := List.getLast?_concat _
      rw [show stripNL (t ++ ['\n']) = (t ++ ['\n']).dropLast from by
        unfold stripNL; rw [if_pos hlast]]
      rw [List.dropLast_concat]
      exact ⟨hne, hall⟩
  · intro h
    obtain ⟨hne, hall⟩ := h
    by_cases hlast : v.getLast? = some '\n'
    · have hstrip : stripNL v = v.dropLast := by unfold stripNL; rw [if_pos hlast]
      rw [hstrip] at hne hall
      have hvne : v ≠ [] := by
        intro e
        rw [e] at hlast
        simp at hlast
      have hl2 : v.getLast hvne = '\n' := by
        have := List.getLast?_eq_getLast v hvne
        rw [this] at hlast
        exact Option.some.inj hlast
      have hv : v = v.dropLast ++ ['\n'] := by
        conv_lhs => rw [← List.dropLast_append_getLast hvne, hl2]
      unfold reOnlyTokenB
      rw [show spanToken v = (v.dropLast, ['\n']) from by
        conv_lhs => rw [hv]
        exact spanToken_append _ _ hall
          (fun c hc => by rw [← Option.some.inj hc]; decide)]
      simp [hne]
    · have hstrip : stripNL v = v := by unfold stripNL; rw [if_neg hlast]
      rw [hstrip] at hne hall
      have hsp : spanToken v = (v, []) := by
        have := spanToken_append v [] hall (fun c hc => by simp at hc)
        simpa using this
      unfold reOnlyTokenB
      rw [hsp]
      simp [hne]

theorem lookupPair_append_not_mem {α : Type} (a b : List (Str × α)) (k : Str)
    (h : ∀ p ∈ a, p.1 ≠ k) : lookupPair (a ++ b) k = lookupPair b k := by
  induction a with
  | nil => rfl
  | cons p rest ih =>
    obtain ⟨k', v⟩ := p
    show (if k' = k then some v else lookupPair (rest ++ b) k) = _
    rw [if_neg (h (k', v) (by simp))]
    exact ih (fun q hq => h q (List.mem_cons_of_mem _ hq))

theorem dictInsert_of_not_contains {α β : Type} [DecidableEq α]
    (m : List (α × β)) (k : α) (v : β) (h : containsKey m k = false) :
    dictInsert m k v = m ++ [(k, v)] := by
  induction m with
  | nil => rfl
  | cons p rest ih =>
    obtain ⟨k', v'⟩ := p
    unfold containsKey at h
    rw [List.any_cons, Bool.or_eq_false_iff] at h
    obtain ⟨h1, h2⟩ := h
    show (if k' = k then (k, v) :: rest else (k', v') :: dictInsert rest k v) = _
    rw [if_neg (by simpa using h1), ih h2]
    rfl

theorem halLinksToPyAux_spec :
    ∀ (m : List (Option Str × HalLink))
      (acc : List (Option Str × List (Str × Option Str))),
      (∀ p ∈ m, lookupPair p.2.dict relKey = some p.1) →
      (∀ p ∈ m, containsKey acc p.1 = false) →
      (m.map Prod.fst).Nodup →
      halLinksToPyAux acc m =
        some (acc ++ m.map (fun p =>
          (p.1, p.2.dict.filter (fun q => decide (q.1 ≠ relKey))))) := by
  intro m
  induction m with
  | nil => intro acc _ _ _; simp [halLinksToPyAux]
  | cons p rest ih =>
    intro acc hrel hdis hnodup
    obtain ⟨k, l⟩ := p
    have h1 : lookupPair l.dict relKey = some k := hrel (k, l) (by simp)
    have htp : halLinkToPy l =
        some (k, l.dict.filter (fun q => decide (q.1 ≠ relKey))) := by
      unfold halLinkToPy
      rw [h1]
    have hins : dictInsert acc k (l.dict.filter (fun q => decide (q.1 ≠ relKey))) =
        acc ++ [(k, l.dict.filter (fun q => decide (q.1 ≠ relKey)))] :=
      dictInsert_of_not_contains _ _ _ (hdis (k, l) (by simp))
    rw [List.map_cons] at hnodup
    have hk_notin : k ∉ rest.map Prod.fst := (List.nodup_cons.mp hnodup).1
    have hnodup2 : (rest.map Prod.fst).Nodup := (List.nodup_cons.mp hnodup).2
    have hdis2 : ∀ p2 ∈ rest,
        containsKey (acc ++ [(k, l.dict.filter (fun q => decide (q.1 ≠ relKey)))])
          p2.1 = false := by
      intro p2 hp2
      unfold containsKey
      rw [List.any_append, Bool.or_eq_false_iff]
      constructor
      · exact hdis p2 (List.mem_cons_of_mem _ hp2)
      · rw [List.any_cons, List.any_nil, Bool.or_false]
        have : k ≠ p2.1 := by
          intro e
          exact hk_notin (e ▸ List.mem_map_of_mem Prod.fst hp2)
        simpa using this
    have hrec := ih (acc ++ [(k, l.dict.filter (fun q => decide (q.1 ≠ relKey)))])
      (fun q hq => hrel q (List.mem_cons_of_mem _ hq)) hdis2 hnodup2
    show halLinksToPyAux acc ((k, l) :: rest) = _
    rw [show halLinksToPyAux acc ((k, l) :: rest) =
      (match halLinkToPy l with
       | none => none
       | some (r, inner) => halLinksToPyAux (dictInsert acc r inner) rest) from rfl]
    rw [htp]
    dsimp only
    rw [hins, hrec]
    simp [List.append_assoc]

theorem halLinkToPy_mkHalLink (kwargs : List (Str × Option Str)) :
    halLinkToPy (mkHalLink kwargs) =
      some (pyOrNone (lookupD kwargs relKey),
        (kwargs.filter (fun p => decide (p.1 ≠ hrefKey ∧ p.1 ≠ relKey))) ++
          [(hrefKey, pyOrNone (lookupD kwargs hrefKey))]) := by
  have hF : ∀ p ∈ kwargs.filter (fun p => decide (p.1 ≠ hrefKey ∧ p.1 ≠ relKey)),
      p.1 ≠ relKey := by
    intro p hp
    exact (of_decide_eq_true (List.mem_filter.mp hp).2).2
  unfold halLinkToPy mkHalLink
  dsimp only
  rw [lookupPair_append_not_mem _ _ _ hF]
  rw [show lookupPair [(relKey, pyOrNone (lookupD kwargs relKey)),
      (hrefKey, pyOrNone (lookupD kwargs hrefKey))] relKey =
      some (pyOrNone (lookupD kwargs relKey)) from by simp [lookupPair]]
  rw [List.filter_append]
  rw [List.filter_eq_self.mpr (fun p hp => decide_eq_true (hF p hp))]
  rw [List.filter_cons_of_neg (fun e => (of_decide_eq_true e) rfl)]
  rw [show List.filter (fun p => decide (p.1 ≠ relKey))
      [(hrefKey, pyOrNone (lookupD kwargs hrefKey))] =
      [(hrefKey, pyOrNone (lookupD kwargs hrefKey))] from
    List.filter_eq_self.mpr (fun p hp => by
      rw [List.mem_singleton] at hp
      subst hp
      exact decide_eq_true (show hrefKey ≠ relKey from by decide))]

end LinkHeaderModel

namespace LinkHeaderModel

/-!
## Claim theorems
-/

/-- Claim C1, code evaluation at the failing input: constructing the
HAL-style collection from two links sharing relation self raises no error and
silently overwrites the first link with the second, because the assert of
Links.update (hal/__init__.py line 116) tests the literal string rel against
the keys of the accumulated dict rather than the incoming link's relation;
the same assert instead fires when an earlier link's relation is the literal
string rel.  This contradicts the claim that inserting a duplicate relation
fails fast and that at most overwriting never happens. -/
theorem c1_duplicate_rel_overwrites :
    halLinksInit
        [mkHalLink [(hrefKey, some "http://a".data), (relKey, some "self".data)],
         mkHalLink [(hrefKey, some "http://b".data), (relKey, some "self".data)]] =
      .ok [(some "self".data,
        mkHalLink [(hrefKey, some "http://b".data), (relKey, some "self".data)])] ∧
    decide (mkHalLink [(hrefKey, some "http://a".data), (relKey, some "self".data)] =
      mkHalLink [(hrefKey, some "http://b".data), (relKey, some "self".data)]) = false ∧
    halLinksInit
        [mkHalLink [(hrefKey, some "http://a".data), (relKey, some relKey)],
         mkHalLink [(hrefKey, some "http://b".data), (relKey, some "x".data)]] =
      .assertError := by decide

/-- Claim C2, counterexample to the claim as stated: the value self matches
the token grammar, yet link_header.Link.__str__ emits it quoted, not
unquoted, because that formatter always quotes every attribute value. -/
theorem c2_claim_counterexample :
    decide (specTokenGrammar "self".data) = true ∧
    lhLinkStr ⟨"http://a".data, [("rel".data, "self".data)]⟩ =
      "<http://a>; rel=\"self\"".data ∧
    decide (lhLinkStr ⟨"http://a".data, [("rel".data, "self".data)]⟩ =
      "<http://a>; rel=self".data) = false := by decide

/-- Claim C2 (amended): for hal.Link.str_pair a value is emitted unquoted
precisely when its content, after discarding at most one trailing newline
(an artifact of the dollar anchor of RE_ONLY_TOKEN under re.match), is a
non-empty run of token characters, or the attribute name ends with a star;
otherwise it is emitted quoted with embedded quotes escaped.
link_header.Link.__str__ does not perform this selection: it always emits
the value quoted (with quotes escaped), even for token values. -/
theorem c2_token_quote_amended (k v : Str) :
    (specTokenGrammar (stripNL v) ∨ k.getLast? = some '*' →
      strPair k v = k ++ '=' :: v) ∧
    (¬(specTokenGrammar (stripNL v) ∨ k.getLast? = some '*') →
      strPair k v = k ++ '=' :: '\"' :: (escapeQ v ++ ['\"'])) ∧
    (specTokenGrammar v → fmtAttr (k, v) = k ++ '=' :: '\"' :: (v ++ ['\"'])) := by
  have hstar : endsWithStar k = true ↔ k.getLast? = some '*' :=
    ⟨fun e => of_decide_eq_true e, fun e => decide_eq_true e⟩
  refine ⟨?_, ?_, ?_⟩
  · intro h
    have hcond : (reOnlyTokenB v || endsWithStar k) = true := by
      rw [Bool.or_eq_true]
      rcases h with h | h
      · exact Or.inl ((reOnlyTokenB_iff v).mpr h)
      · exact Or.inr (hstar.mpr h)
    unfold strPair
    rw [if_pos hcond]
  · intro h
    have hcond : ¬((reOnlyTokenB v || endsWithStar k) = true) := by
      intro hc
      rw [Bool.or_eq_true] at hc
      rcases hc with hc | hc
      · exact h (Or.inl ((reOnlyTokenB_iff v).mp hc))
      · exact h (Or.inr (hstar.mp hc))
    unfold strPair
    rw [if_neg hcond]
  · intro h
    have hq : '\"' ∉ v := fun hq => absurd (h.2 '\"' hq) (by decide)
    unfold fmtAttr
    dsimp only
    rw [escapeQ_no_quote hq]

/-- Claim C2, witness instances of the amended theorem. -/
theorem c2_token_quote_witness :
    strPair "rel".data "self".data = "rel".data ++ '=' :: "self".data ∧
    strPair "rel".data "a b".data =
      "rel".data ++ '=' :: '\"' :: (escapeQ "a b".data ++ ['\"']) ∧
    fmtAttr ("rel".data, "self".data) =
      "rel".data ++ '=' :: '\"' :: ("self".data ++ ['\"']) :=
  ⟨(c2_token_quote_amended "rel".data "self".data).1 (Or.inl (by decide)),
   (c2_token_quote_amended "rel".data "a b".data).2.1 (by decide),
   (c2_token_quote_amended "rel".data "self".data).2.2 (by decide)⟩

/-- Claim C3: whenever the link loop of the HAL-style parser leaves a
non-empty unmatched remainder in the scanner buffer, Links.parse raises a
LinkError carrying that remainder rather than returning a collection. -/
theorem c3_unmatched_remainder_error (s : Str) (links : List HalLink)
    (leftover : Str)
    (hloop : halLinksLoopF (s.length + 1) s = some (links, leftover))
    (hne : leftover ≠ []) :
    halParseF s = some (.linkError leftover) := by
  unfold halParseF
  rw [hloop]
  dsimp only
  rw [if_neg hne]

/-- Claim C3, witness: the specification's example input leaves GARBAGE
unmatched and the parse raises the header-format error carrying it. -/
theorem c3_unmatched_remainder_witness :
    halParseF "<http://a>; rel=x GARBAGE".data =
      some (.linkError "GARBAGE".data) :=
  c3_unmatched_remainder_error "<http://a>; rel=x GARBAGE".data
    [⟨[(relKey, some "x".data), (hrefKey, some "http://a".data)]⟩]
    "GARBAGE".data (by decide) (by decide)

/-- Claim C4, code evaluation at the failing input: the wire-faithful parse
crashes with an AttributeError on any unquoted (token) attribute value,
because line 49 of link_header.py calls .replace on capture group 4, which
is None when the TOKEN alternative matched; the claimed silent dropping of
an unmatched remainder does hold on inputs whose attribute values are all
quoted. -/
theorem c4_token_value_crash :
    lhParse "<http://a>; rel=x".data = some .exn ∧
    lhParse "<http://a>; rel=\"x\" %%%".data =
      some (.ok [⟨"http://a".data, [("rel".data, "x".data)]⟩]) := by decide

/-- Claim C5, counterexample to the claim as stated: a link whose attribute
value is a single backslash formats to a quoted section whose body cannot be
re-matched by the QUOTED pattern, so reparsing drops the attribute entirely
and neither the structure nor the formatted string round-trips. -/
theorem c5_claim_counterexample :
    lhParse (lhStr [⟨"http://a".data, [("rel".data, "\\".data)]⟩]) =
      some (.ok [⟨"http://a".data, []⟩]) ∧
    decide (([⟨"http://a".data, []⟩] : List WireLink) =
      [⟨"http://a".data, [("rel".data, "\\".data)]⟩]) = false ∧
    decide (lhStr [⟨"http://a".data, []⟩] =
      lhStr [⟨"http://a".data, [("rel".data, "\\".data)]⟩]) = false := by decide

/-- Claim C5 (amended): for every wire-faithful collection whose hrefs
contain no greater-than sign and do not begin with a space, whose attribute
names are non-empty token runs, and whose attribute values contain no
backslash, parsing the formatted string returns exactly the original
collection (and hence re-formatting yields the same string). -/
theorem c5_roundtrip_amended (links : List WireLink) (h : goodLinks links) :
    lhParse (lhStr links) = some (.ok links) ∧
    (∀ ls, lhParse (lhStr links) = some (.ok ls) → lhStr ls = lhStr links) := by
  have hmain : lhParse (lhStr links) = some (.ok links) :=
    parseLinksF_fmt links ((lhStr links).length + 1) h (by omega)
  refine ⟨hmain, ?_⟩
  intro ls hls
  rw [hmain] at hls
  rw [← PyRes.ok.inj (Option.some.inj hls)]

/-- Claim C5, witness: a concrete two-link collection (with an escaped quote
in a value) round-trips. -/
theorem c5_roundtrip_witness :
    lhParse (lhStr [⟨"http://a".data, [("rel".data, "x\"y".data)]⟩,
                    ⟨"http://b".data, []⟩]) =
      some (.ok [⟨"http://a".data, [("rel".data, "x\"y".data)]⟩,
                 ⟨"http://b".data, []⟩]) :=
  (c5_roundtrip_amended
    [⟨"http://a".data, [("rel".data, "x\"y".data)]⟩, ⟨"http://b".data, []⟩]
    (by decide)).1

/-- Claim C6: the wire-faithful parse of the specification's two-link
example yields exactly the two links, in input order, with their relation
values; and a link with a duplicated attribute name retains both pairs in
encounter order. -/
theorem c6_order_preservation :
    lhParse "<http://a>; rel=\"x\", <http://b>; rel=\"y\"".data =
      some (.ok [⟨"http://a".data, [("rel".data, "x".data)]⟩,
                 ⟨"http://b".data, [("rel".data, "y".data)]⟩]) ∧
    lhParse "<http://a>; foo=\"bar\"; foo=\"baz\"".data =
      some (.ok [⟨"http://a".data,
        [("foo".data, "bar".data), ("foo".data, "baz".data)]⟩]) := by decide

/-- Claim C7: for a recognized attribute name, hal.Link attribute access
returns the absent value when nothing is stored, the full stored sequence
when the attribute is multi-valued or the stored value holds more than one
element, and the unwrapped sole element otherwise. -/
theorem c7_getattr_value_shape (dict : List (Str × List Str)) (key : Str)
    (hrec : normalizeAttr key ∈ STANDARD_ATTRS) :
    (lookupPair dict (normalizeAttr key) = none →
      halGetattr dict key = .pyNone) ∧
    (∀ v, lookupPair dict (normalizeAttr key) = some v →
      (normalizeAttr key ∈ MULTI_VALUED_ATTRS ∨ 1 < v.length) →
      halGetattr dict key = .fullVal v) ∧
    (∀ x, lookupPair dict (normalizeAttr key) = some [x] →
      normalizeAttr key ∉ MULTI_VALUED_ATTRS →
      halGetattr dict key = .singleVal x) := by
  refine ⟨?_, ?_, ?_⟩
  · intro hl
    simp [halGetattr, hl, hrec]
  · intro v hl hcond
    rcases hcond with hc | hc <;> simp [halGetattr, hl, hrec, hc]
  · intro x hl hnm
    simp [halGetattr, hl, hrec, hnm]

/-- Claim C7, witness: a stored single-element value of a single-valued
attribute is returned unwrapped. -/
theorem c7_getattr_value_shape_witness :
    halGetattr [("rel".data, ["self".data])] "rel".data =
      .singleVal "self".data :=
  (c7_getattr_value_shape [("rel".data, ["self".data])] "rel".data
    (by decide)).2.2 "self".data (by decide) (by decide)

/-- Claim C8: accessing an attribute whose normalized name (lowercased,
underscores mapped to hyphens, content-type aliased to type) is not in the
recognized set raises an AttributeError naming the normalized form, rather
than returning the absent value. -/
theorem c8_unknown_attr_error (dict : List (Str × List Str)) (key : Str)
    (h : normalizeAttr key ∉ STANDARD_ATTRS) :
    halGetattr dict key = .attrError (normalizeAttr key) := by
  simp [halGetattr, h]

/-- Claim C8, witness: the unrecognized name foo is rejected. -/
theorem c8_unknown_attr_error_witness :
    halGetattr [] "foo".data = .attrError "foo".data :=
  (c8_unknown_attr_error [] "foo".data (by decide)).trans (by decide)

/-- Claim C9: hal.Link.to_py returns the pair of the link's (falsy-resolved)
relation value and the dict of all its stored attributes, href included,
with the relation key removed; and hal.Links.to_py maps each stored link to
that pair, keyed by its relation. -/
theorem c9_to_py_shape :
    (∀ kwargs : List (Str × Option Str),
      halLinkToPy (mkHalLink kwargs) =
        some (pyOrNone (lookupD kwargs relKey),
          (kwargs.filter (fun p => decide (p.1 ≠ hrefKey ∧ p.1 ≠ relKey))) ++
            [(hrefKey, pyOrNone (lookupD kwargs hrefKey))])) ∧
    (∀ m : List (Option Str × HalLink),
      (∀ p ∈ m, lookupPair p.2.dict relKey = some p.1) →
      (m.map Prod.fst).Nodup →
      halLinksToPy m =
        some (m.map (fun p =>
          (p.1, p.2.dict.filter (fun q => decide (q.1 ≠ relKey)))))) := by
  constructor
  · exact halLinkToPy_mkHalLink
  · intro m h1 h2
    have h3 := halLinksToPyAux_spec m [] h1 (fun p hp => rfl) h2
    simpa [halLinksToPy] using h3

/-- Claim C9, witness: the specification's parent and child example converts
to the HAL-style relation-keyed mapping. -/
theorem c9_to_py_shape_witness :
    halLinksToPy
        [(some "parent".data, mkHalLink [(hrefKey, some "h1".data),
            (relKey, some "parent".data), ("title".data, some "t1".data)]),
         (some "child".data, mkHalLink [(hrefKey, some "h2".data),
            (relKey, some "child".data), ("title".data, some "t2".data)])] =
      some [(some "parent".data,
              [("title".data, some "t1".data), (hrefKey, some "h1".data)]),
            (some "child".data,
              [("title".data, some "t2".data), (hrefKey, some "h2".data)])] :=
  (c9_to_py_shape.2
    [(some "parent".data, mkHalLink [(hrefKey, some "h1".data),
        (relKey, some "parent".data), ("title".data, some "t1".data)]),
     (some "child".data, mkHalLink [(hrefKey, some "h2".data),
        (relKey, some "child".data), ("title".data, some "t2".data)])]
    (by decide) (by decide)).trans (by decide)

/-- Claim C10: both parsers terminate on every finite input: run with fuel
one greater than the input length (each loop iteration requires a successful
scan, and every successful scan strictly shortens the buffer, so this fuel
is never exhausted), neither parser runs out of fuel. -/
theorem c10_parsers_terminate (s : Str) :
    (lhParse s).isSome = true ∧ (halParseF s).isSome = true := by
  constructor
  · rw [Option.isSome_iff_ne_none]
    exact parseLinksF_ne_none _ _ (by omega)
  · rw [Option.isSome_iff_ne_none]
    unfold halParseF
    cases hL : halLinksLoopF (s.length + 1) s with
    | none => exact absurd hL (halLinksLoopF_ne_none _ _ (by omega))
    | some p =>
      obtain ⟨links, leftover⟩ := p
      dsimp only
      by_cases he : leftover = []
      · rw [if_pos he]
        cases halLinksInit links <;> simp
      · rw [if_neg he]
        simp

end LinkHeaderModel
